import Mathlib

/-!
Verification of the prom-relabel-proxy label rewriting engine.

The development embeds the Go sources of the repository
(internal/rewriter, internal/proxy, internal/config) as executable Lean
definitions over `List Char` strings and an explicit JSON tree type, and
proves properties of the query rewriter, the result tree rewriter and the
HTTP interception pipeline.

Strings are modelled as `List Char`.  Machine integers that only ever hold
byte lengths are modelled as `Int` (Go `int64`) or `Nat`.  Fallible
operations return `Option`.  The gzip codec and the JSON value codec of the
Go standard library are modelled explicitly below (the JSON codec as a
fuel-driven recursive-descent parser plus a total serializer; numbers are
kept as raw lexemes, and unicode escapes are not modelled).
-/

namespace PromRelabel

/-- Strings are lists of characters. -/
abbrev Str := List Char

/-- The opening brace character. -/
def lbrace : Char := Char.ofNat 123

/-- The closing brace character. -/
def rbrace : Char := Char.ofNat 125

/-- config.Rule: a single label mapping rule (source_label, target_label). -/
structure Rule where
  SourceLabel : Str
  TargetLabel : Str
  deriving DecidableEq

/-- Position of the first occurrence of `pat` in `s`, as in Go strings.Index
(which returns -1 when absent; the absent case is `none` here). -/
def firstIndexOf : Str → Str → Option Nat
  | [], pat => if pat = [] then some 0 else none
  | c :: rest, pat =>
    if pat.isPrefixOf (c :: rest) then some 0
    else (firstIndexOf rest pat).map (· + 1)

/-- Go strings.Contains. -/
def containsSub (s pat : Str) : Bool := (firstIndexOf s pat).isSome

/-- Go strings.TrimSpace (restricted to ASCII whitespace). -/
def trimSpace (s : Str) : Str :=
  (((s.dropWhile Char.isWhitespace).reverse).dropWhile Char.isWhitespace).reverse

/-- The `=` matcher operator. -/
def opEq : Str := ['=']

/-- The `=~` matcher operator. -/
def opEqTilde : Str := ['=', '~']

/-- The `!=` matcher operator. -/
def opNeq : Str := ['!', '=']

/-- The `!~` matcher operator. -/
def opNeqTilde : Str := ['!', '~']

/-- Operator detection of rewriter.RewriteQuery: check for `=~` first, then
`!=`, then `!~`, else default to `=` (proxy source, part_000 lines 58-65). -/
def detectOperator (part : Str) : Str :=
  if containsSub part opEqTilde then opEqTilde
  else if containsSub part opNeq then opNeq
  else if containsSub part opNeqTilde then opNeqTilde
  else opEq

/-- The prefix test of RewriteQuery (part_000 lines 53-56): the trimmed
fragment begins with the source label followed by one of the operators. -/
def matchesRule (rule : Rule) (part : Str) : Bool :=
  let t := trimSpace part
  (rule.SourceLabel ++ opEq).isPrefixOf t ||
  (rule.SourceLabel ++ opEqTilde).isPrefixOf t ||
  (rule.SourceLabel ++ opNeq).isPrefixOf t ||
  (rule.SourceLabel ++ opNeqTilde).isPrefixOf t

/-- The fragment replacement of RewriteQuery (part_000 lines 57-70): replace
the label name, keep the detected operator and everything after its first
occurrence.  The `none` branch is unreachable under `matchesRule`. -/
def applyRule (rule : Rule) (part : Str) : Str :=
  let op := detectOperator part
  match firstIndexOf part op with
  | some i => rule.TargetLabel ++ op ++ part.drop (i + op.length)
  | none => part

/-- The per-fragment rule loop of RewriteQuery (part_000 lines 50-73): the
first rule whose prefix test succeeds is applied and iteration stops. -/
def rewritePart (rules : List Rule) (part : Str) : Str :=
  match rules.find? (fun rule => matchesRule rule part) with
  | some rule => applyRule rule part
  | none => part

/-- Go strings.Split on a comma. -/
def splitOnComma : Str → List Str
  | [] => [[]]
  | c :: rest =>
    if c = ',' then [] :: splitOnComma rest
    else
      match splitOnComma rest with
      | [] => [[c]]
      | p :: ps => (c :: p) :: ps

/-- Rewrite of a single brace-group interior: split on commas, rewrite each
fragment, rejoin with commas (part_000 lines 44-76). -/
def rewriteGroupInner (rules : List Rule) (inner : Str) : Str :=
  List.intercalate [','] ((splitOnComma inner).map (rewritePart rules))

/-- State machine for the regex replacement over pattern
`\x7b[^\x7b\x7d]*\x7d`: the first argument holds the interior collected
since the last unmatched opening brace (`none` when outside a candidate
group).  On an inner opening brace the match attempt restarts there, as the
leftmost-match regex engine does. -/
def rgAux (f : Str → Str) : Option Str → Str → Str
  | none, [] => []
  | some buf, [] => lbrace :: buf
  | none, c :: rest =>
    if c = lbrace then rgAux f (some []) rest
    else c :: rgAux f none rest
  | some buf, c :: rest =>
    if c = rbrace then (lbrace :: f buf ++ [rbrace]) ++ rgAux f none rest
    else if c = lbrace then (lbrace :: buf) ++ rgAux f (some []) rest
    else rgAux f (some (buf ++ [c])) rest

/-- Replace every non-nested brace group `\x7b...\x7d` in `s` by braces
around `f` of its interior (regexp.ReplaceAllStringFunc in part_000 line 43,
with the brace wrapping of line 76 folded in). -/
def replaceGroups (f : Str → Str) (s : Str) : Str := rgAux f none s

/-- rewriter.RewriteQuery (part_000 lines 34-78). -/
def RewriteQuery (rules : List Rule) (query : Str) : Str :=
  if rules.isEmpty then query
  else replaceGroups (rewriteGroupInner rules) query

end PromRelabel

namespace PromRelabel

/-! ### JSON tree model

The value trees produced by Go json.Unmarshal into `map[string]interface{}`
(nested maps, slices and scalars).  Object fields are an association list;
key order is not observable in Go (maps are unordered), and the operations
below implement Go map semantics: lookup of the first entry, overwrite on
insert, removal on delete.  Numbers are kept as raw lexemes. -/

mutual

inductive JSON where
  | null : JSON
  | bool (b : Bool) : JSON
  | num (lex : Str) : JSON
  | str (s : Str) : JSON
  | arr (elems : JList) : JSON
  | obj (fields : JFields) : JSON

inductive JList where
  | nil : JList
  | cons (hd : JSON) (tl : JList) : JList

inductive JFields where
  | nil : JFields
  | cons (key : Str) (val : JSON) (tl : JFields) : JFields

end

/-- Go map read `m[k]` (first matching entry). -/
def fget : JFields → Str → Option JSON
  | .nil, _ => none
  | .cons k v rest, key => if k = key then some v else fget rest key

/-- Go `delete(m, k)`: remove every entry with the key. -/
def fdel : JFields → Str → JFields
  | .nil, _ => .nil
  | .cons k v rest, key => if k = key then fdel rest key else .cons k v (fdel rest key)

/-- Concatenation of field lists. -/
def fapp : JFields → JFields → JFields
  | .nil, gs => gs
  | .cons k v rest, gs => .cons k v (fapp rest gs)

/-- Go map write `m[k] = v` (key order is unobservable in Go, so the entry is
placed at the end). -/
def fset (fs : JFields) (key : Str) (v : JSON) : JFields :=
  fapp (fdel fs key) (.cons key v .nil)

/-- Append to a JSON list. -/
def lapp : JList → JList → JList
  | .nil, ys => ys
  | .cons x rest, ys => .cons x (lapp rest ys)

/-- Snoc onto a JSON list. -/
def lsnoc (xs : JList) (v : JSON) : JList := lapp xs (.cons v .nil)

/-! Node-counting size of a tree; used as the fuel bound of the recursive
tree walk. -/

mutual

def jsize : JSON → Nat
  | .obj fields => 1 + fsize fields
  | .arr xs => 1 + lsize xs
  | _ => 1

def fsize : JFields → Nat
  | .nil => 0
  | .cons _ v rest => 1 + jsize v + fsize rest

def lsize : JList → Nat
  | .nil => 0
  | .cons x rest => 1 + jsize x + lsize rest

end

/-- The field name whose object value is treated as a label set. -/
def metricKey : Str := "metric".data

/-- One iteration of the label-rename loop of processJSONData (part_000
lines 130-135): if the label set has the source label, write its value under
the target label, then delete the source label. -/
def rewriteLabelsStep (mf : JFields) (rule : Rule) : JFields :=
  match fget mf rule.SourceLabel with
  | some val => fdel (fset mf rule.TargetLabel val) rule.SourceLabel
  | none => mf

/-- The label-rename loop over every result rule in table order. -/
def rewriteLabels (rules : List Rule) (mf : JFields) : JFields :=
  rules.foldl rewriteLabelsStep mf

/-- The metric special case of processJSONData (part_000 lines 128-136):
when the node has a field named `metric` holding an object, rewrite that
label set in place. -/
def metricStep (rules : List Rule) (fields : JFields) : JFields :=
  match fget fields metricKey with
  | some (.obj mf) => fset fields metricKey (.obj (rewriteLabels rules mf))
  | _ => fields

/-! The recursive tree walk of processJSONData (part_000 lines 124-148).
The fuel argument is only a termination device: every recursive call
strictly decreases fuel, and the walk invoked from `RewriteResultJSON`
receives fuel `jsize t + 1`, which exceeds the recursion depth of the Go
function on `t` (the metric rewrite never increases `jsize`), so the
fuel-out branches below are never taken on those calls. -/

mutual

def processJSONData (rules : List Rule) : Nat → JSON → JSON
  | 0, t => t
  | fuel+1, .obj fields => .obj (processFields rules fuel (metricStep rules fields))
  | fuel+1, .arr xs => .arr (processElems rules fuel xs)
  | _+1, t => t

def processFields (rules : List Rule) : Nat → JFields → JFields
  | _, .nil => .nil
  | 0, fs => fs
  | fuel+1, .cons k v rest =>
    .cons k (processJSONData rules fuel v) (processFields rules fuel rest)

def processElems (rules : List Rule) : Nat → JList → JList
  | _, .nil => .nil
  | 0, xs => xs
  | fuel+1, .cons v rest =>
    .cons (processJSONData rules fuel v) (processElems rules fuel rest)

end

/-! ### JSON codec

Model of Go encoding/json Unmarshal and Marshal as used by
RewriteResultJSON (part_000 lines 103-118): a recursive-descent parser and
a serializer over the tree model above.  Deliberate simplifications of the
Go codec, none of which the claims depend on: numbers are scanned as raw
lexemes rather than validated float syntax, string escapes cover the
single-character escapes but not unicode escapes, raw control characters
inside strings are accepted, and the serializer emits object fields in list
order instead of sorted key order (field order is unobservable to a JSON
reader).  The parser fuel decreases on every recursive call and the entry
point supplies fuel larger than the input length, which bounds the
recursion depth, so fuel exhaustion is unreachable from the entry point. -/

/-- Whitespace accepted between JSON tokens. -/
def isWS (c : Char) : Bool := c = ' ' || c = '\t' || c = '\n' || c = '\r'

/-- Skip inter-token whitespace. -/
def skipWs (s : Str) : Str := s.dropWhile isWS

/-- Characters that may occur inside a number lexeme. -/
def numChar (c : Char) : Bool :=
  c.isDigit || c = '-' || c = '+' || c = 'e' || c = 'E' || c = '.'

/-- Characters that may start a number lexeme. -/
def numStart (c : Char) : Bool := c.isDigit || c = '-'

/-- Decoding of a character following a backslash inside a string. -/
def unescapeChar (c : Char) : Option Char :=
  if c = '"' then some '"'
  else if c = '\\' then some '\\'
  else if c = '/' then some '/'
  else if c = 'n' then some '\n'
  else if c = 't' then some '\t'
  else if c = 'r' then some '\r'
  else if c = 'b' then some (Char.ofNat 8)
  else if c = 'f' then some (Char.ofNat 12)
  else none

/-- Characters of the keyword literal `true`. -/
def litTrue : Str := ['t', 'r', 'u', 'e']

/-- Characters of the keyword literal `false`. -/
def litFalse : Str := ['f', 'a', 'l', 's', 'e']

/-- Characters of the keyword literal `null`. -/
def litNull : Str := ['n', 'u', 'l', 'l']

/-- Prefix test used by the parser for the three keyword literals. -/
def startsWith : Str → Str → Bool
  | [], _ => true
  | _ :: _, [] => false
  | p :: ps, c :: cs => p = c && startsWith ps cs

/-- Parse the remainder of a string literal after the opening quote,
returning the decoded content and the input after the closing quote. -/
def parseStringBody : Str → Option (Str × Str)
  | [] => none
  | '"' :: rest => some ([], rest)
  | '\\' :: [] => none
  | '\\' :: e :: rest2 =>
    match unescapeChar e with
    | some d => (parseStringBody rest2).map (fun p => (d :: p.1, p.2))
    | none => none
  | c :: rest => (parseStringBody rest).map (fun p => (c :: p.1, p.2))

mutual

def parseValue : Nat → Str → Option (JSON × Str)
  | 0, _ => none
  | fuel+1, input =>
    match skipWs input with
    | [] => none
    | c :: rest =>
      if c = lbrace then
        match skipWs rest with
        | d :: rest2 =>
          if d = rbrace then some (.obj .nil, rest2)
          else parseMembers fuel (d :: rest2) .nil
        | [] => none
      else if c = '[' then
        match skipWs rest with
        | d :: rest2 =>
          if d = ']' then some (.arr .nil, rest2)
          else parseElems fuel (d :: rest2) .nil
        | [] => none
      else if c = '"' then
        (parseStringBody rest).map (fun p => (.str p.1, p.2))
      else if numStart c then
        some (.num ((c :: rest).takeWhile numChar), (c :: rest).dropWhile numChar)
      else if startsWith litTrue (c :: rest) then
        some (.bool true, (c :: rest).drop 4)
      else if startsWith litFalse (c :: rest) then
        some (.bool false, (c :: rest).drop 5)
      else if startsWith litNull (c :: rest) then
        some (.null, (c :: rest).drop 4)
      else none

def parseMembers : Nat → Str → JFields → Option (JSON × Str)
  | 0, _, _ => none
  | fuel+1, input, acc =>
    match skipWs input with
    | c :: rest =>
      if c = '"' then
        match parseStringBody rest with
        | some (key, rest2) =>
          match skipWs rest2 with
          | d :: rest3 =>
            if d = ':' then
              match parseValue fuel rest3 with
              | some (v, rest4) =>
                match skipWs rest4 with
                | e :: rest5 =>
                  if e = ',' then parseMembers fuel rest5 (fset acc key v)
                  else if e = rbrace then some (.obj (fset acc key v), rest5)
                  else none
                | [] => none
              | none => none
            else none
          | [] => none
        | none => none
      else none
    | [] => none

def parseElems : Nat → Str → JList → Option (JSON × Str)
  | 0, _, _ => none
  | fuel+1, input, acc =>
    match parseValue fuel input with
    | some (v, rest) =>
      match skipWs rest with
      | e :: rest2 =>
        if e = ',' then parseElems fuel rest2 (lsnoc acc v)
        else if e = ']' then some (.arr (lsnoc acc v), rest2)
        else none
      | [] => none
    | none => none

end

/-- Parse one complete JSON document: a value followed only by whitespace. -/
def parseTopValue (input : Str) : Option JSON :=
  match parseValue (input.length + 1) input with
  | some (t, rest) => if skipWs rest = [] then some t else none
  | none => none

/-- Go json.Unmarshal into `map[string]interface{}`: fails on malformed
input and on well-formed input whose top-level value is neither an object
nor `null`.  A top-level `null` succeeds and leaves the destination map nil
(modeled as `some none`); a top-level object yields its fields. -/
def unmarshalTop (input : Str) : Option (Option JFields) :=
  match parseTopValue input with
  | some (.obj fs) => some (some fs)
  | some .null => some none
  | _ => none

/-- Escaping of one character inside a serialized string literal. -/
def escapeChar (c : Char) : Str :=
  if c = '"' then ['\\', '"']
  else if c = '\\' then ['\\', '\\']
  else [c]

/-- Escaping of a string literal's content. -/
def escapeString : Str → Str
  | [] => []
  | c :: rest => escapeChar c ++ escapeString rest

mutual

def serializeJSON : JSON → Str
  | .null => litNull
  | .bool true => litTrue
  | .bool false => litFalse
  | .num lex => lex
  | .str s => '"' :: escapeString s ++ ['"']
  | .arr xs => '[' :: serializeElems xs ++ [']']
  | .obj fs => lbrace :: serializeFields fs ++ [rbrace]

def serializeFields : JFields → Str
  | .nil => []
  | .cons k v rest =>
    ('"' :: escapeString k ++ '"' :: ':' :: serializeJSON v)
      ++ (match rest with
          | .nil => []
          | r => ',' :: serializeFields r)

def serializeElems : JList → Str
  | .nil => []
  | .cons v rest =>
    serializeJSON v
      ++ (match rest with
          | .nil => []
          | r => ',' :: serializeElems r)

end

/-- Go json.Marshal on these trees.  Marshal can fail in general (cyclic or
unsupported values), but never on trees reachable from json.Unmarshal or
from their label renamings, so the model's encoder is total; the Option
wrapper keeps the code's defensive error branch in place. -/
def marshalJSON (t : JSON) : Option Str := some (serializeJSON t)

/-- rewriter.RewriteResultJSON (part_000 lines 98-121): empty rule table and
parse failure pass the input through unchanged; a top-level `null` leaves
the destination map nil, the walk only reads the nil map, and Marshal
re-emits the four bytes `null`; otherwise rewrite the tree and re-encode
it, falling back to the input on an encoding failure. -/
def RewriteResultJSON (rules : List Rule) (jsonData : Str) : Str :=
  if rules.isEmpty then jsonData
  else
    match unmarshalTop jsonData with
    | none => jsonData
    | some none => litNull
    | some (some data) =>
      let tree2 := processJSONData rules (jsize (.obj data) + 1) (.obj data)
      match marshalJSON tree2 with
      | some result => result
      | none => jsonData

/-! ### URL query parameter and form body codec

Model of net/url Values, ParseQuery and Encode as used by the proxy.  The
percent codec follows Go QueryEscape/QueryUnescape on single bytes (runes
above one byte are not split into UTF-8 bytes, a simplification no claim
depends on). -/

/-- One `key → values` table, ordered by first appearance (url.Values). -/
abbrev Params := List (Str × List Str)

/-- Upper-case hexadecimal digit of a value below 16. -/
def hexDigit (n : Nat) : Char :=
  if n < 10 then Char.ofNat (48 + n) else Char.ofNat (55 + n)

/-- Value of a hexadecimal digit character. -/
def hexValue (c : Char) : Option Nat :=
  if '0' ≤ c ∧ c ≤ '9' then some (c.toNat - 48)
  else if 'A' ≤ c ∧ c ≤ 'F' then some (c.toNat - 55)
  else if 'a' ≤ c ∧ c ≤ 'f' then some (c.toNat - 87)
  else none

/-- Characters Go url.QueryEscape leaves unescaped. -/
def unreservedChar (c : Char) : Bool :=
  c.isAlpha || c.isDigit || c = '-' || c = '_' || c = '.' || c = '~'

/-- Go url.QueryEscape. -/
def queryEscape : Str → Str
  | [] => []
  | c :: rest =>
    (if c = ' ' then ['+']
     else if unreservedChar c then [c]
     else ['%', hexDigit (c.toNat % 256 / 16), hexDigit (c.toNat % 256 % 16)])
      ++ queryEscape rest

/-- Go url.QueryUnescape; fails on a malformed percent escape. -/
def queryUnescape : Str → Option Str
  | [] => some []
  | '%' :: a :: b :: rest =>
    match hexValue a, hexValue b with
    | some ha, some hb => (queryUnescape rest).map (Char.ofNat (16 * ha + hb) :: ·)
    | _, _ => none
  | '%' :: _ => none
  | '+' :: rest => (queryUnescape rest).map (' ' :: ·)
  | c :: rest => (queryUnescape rest).map (c :: ·)

/-- Go strings.Cut (the found flag is dropped by the caller). -/
def cutChar (sep : Char) : Str → Str × Str
  | [] => ([], [])
  | c :: rest =>
    if c = sep then ([], rest)
    else
      let p := cutChar sep rest
      (c :: p.1, p.2)

/-- Split on every occurrence of a separator (the segment loop of
url.ParseQuery). -/
def splitOnChar (sep : Char) : Str → List Str
  | [] => [[]]
  | c :: rest =>
    if c = sep then [] :: splitOnChar sep rest
    else
      match splitOnChar sep rest with
      | [] => [[c]]
      | p :: ps => (c :: p) :: ps

/-- Record one decoded key/value pair (url.Values append semantics: values
accumulate under the first occurrence of their key). -/
def addParam (ps : Params) (key : Str) (v : Str) : Params :=
  match ps with
  | [] => [(key, [v])]
  | (k, vs) :: rest =>
    if k = key then (k, vs ++ [v]) :: rest
    else (k, vs) :: addParam rest key v

/-- Decode one `key=value` segment and add it; empty segments are skipped,
and a semicolon or a bad escape is the error case (url.ParseQuery records
the error, and the proxy aborts the body rewrite on any error). -/
def parseQuerySegment (ps : Params) (seg : Str) : Option Params :=
  if seg = [] then some ps
  else if seg.contains ';' then none
  else
    let kv := cutChar '=' seg
    match queryUnescape kv.1, queryUnescape kv.2 with
    | some key, some v => some (addParam ps key v)
    | _, _ => none

/-- Go url.ParseQuery. -/
def parseQueryForm (body : Str) : Option Params :=
  (splitOnChar '&' body).foldlM parseQuerySegment []

/-- Lexicographic order on strings used by the sorted encoder. -/
def leStr : Str → Str → Bool
  | [], _ => true
  | _ :: _, [] => false
  | a :: as, b :: bs => a < b || (a = b && leStr as bs)

/-- Insertion into a key-sorted parameter list. -/
def insertSorted (p : Str × List Str) : Params → Params
  | [] => [p]
  | q :: rest => if leStr p.1 q.1 then p :: q :: rest else q :: insertSorted p rest

/-- Sort parameters by key (url.Values.Encode sorts keys). -/
def sortParams : Params → Params
  | [] => []
  | p :: rest => insertSorted p (sortParams rest)

/-- Go url.Values.Encode: keys in sorted order, each value percent-escaped
as `key=value`, joined with ampersands. -/
def encodeParams (ps : Params) : Str :=
  List.intercalate ['&']
    ((sortParams ps).flatMap
      (fun p => p.2.map (fun v => queryEscape p.1 ++ '=' :: queryEscape v)))

/-- Rewrite the values of the `query` and `match[]` parameters with the
query rewriter, leaving every other parameter alone (the parameter loops of
RewriteQueryURL, part_000 lines 85-91, and of the form branch of
rewriteRequest, proxy.go lines 115-123). -/
def rewriteParamsMap (rules : List Rule) (ps : Params) : Params :=
  ps.map (fun p =>
    if p.1 = "query".data || p.1 = "match[]".data
    then (p.1, p.2.map (RewriteQuery rules))
    else p)

/-! ### Interception pipeline (internal/proxy/proxy.go) -/

/-- The slice of an http.Request the request pipeline reads and writes.
`ContentLengthHeader` is the Content-Length header entry (absent = none). -/
structure Request where
  Method : Str
  ContentTypeHeader : Str
  Body : Option Str
  ContentLength : Int
  ContentLengthHeader : Option Str
  URLParams : Params

/-- proxy.rewriteRequest (proxy.go lines 85-137): always rewrite the URL
query parameters; for a POST with a body and the exact form content type,
read and parse the body, rewrite the form, re-encode it and recompute both
content lengths.  When the form fails to parse the handler returns early
with the body already consumed by ReadAll, which is an empty body. -/
def rewriteRequest (rules : List Rule) (req : Request) : Request :=
  let req1 := { req with URLParams := rewriteParamsMap rules req.URLParams }
  if req1.Method = "POST".data then
    match req1.Body with
    | none => req1
    | some body =>
      if req1.ContentTypeHeader = "application/x-www-form-urlencoded".data then
        match parseQueryForm body with
        | none => { req1 with Body := some [] }
        | some form =>
          let newBody := encodeParams (rewriteParamsMap rules form)
          { req1 with
            Body := some newBody
            ContentLength := (newBody.length : Int)
            ContentLengthHeader := some (Nat.toDigits 10 newBody.length) }
      else req1
  else req1

/-- The slice of an http.Response the response pipeline reads and writes.
`ContentEncoding` is the Content-Encoding header entry (absent = none, and
Header.Get of an absent entry is the empty string). -/
structure Response where
  ContentTypeHeader : Str
  ContentEncoding : Option Str
  Body : Str
  ContentLength : Int
  ContentLengthHeader : Option Str

/-- proxy.rewriteResponse (proxy.go lines 140-247), parameterized by the
gzip codec: non-JSON content types pass through untouched; a gzip body that
fails to decompress is restored unchanged (fail-open); otherwise the
decompressed body is rewritten and recompressed, recompression failure
degrades to the uncompressed rewritten bytes with the Content-Encoding
header removed, and both content lengths are recomputed from the final
body. -/
def rewriteResponse (rules : List Rule)
    (gzipDecompress gzipCompress : Str → Option Str)
    (resp : Response) : Response :=
  if ¬ containsSub resp.ContentTypeHeader "application/json".data then resp
  else if resp.ContentEncoding.getD [] = "gzip".data then
    match gzipDecompress resp.Body with
    | none => resp
    | some decompressed =>
      let newBody := RewriteResultJSON rules decompressed
      match gzipCompress newBody with
      | none =>
        { resp with
          ContentEncoding := none
          Body := newBody
          ContentLength := (newBody.length : Int)
          ContentLengthHeader := some (Nat.toDigits 10 newBody.length) }
      | some compressed =>
        { resp with
          Body := compressed
          ContentLength := (compressed.length : Int)
          ContentLengthHeader := some (Nat.toDigits 10 compressed.length) }
  else
    let newBody := RewriteResultJSON rules resp.Body
    { resp with
      Body := newBody
      ContentLength := (newBody.length : Int)
      ContentLengthHeader := some (Nat.toDigits 10 newBody.length) }

/-! ### Well-formedness of parsed trees

Invariant satisfied by every tree the parser produces and preserved by the
label rewrite: object keys are pairwise distinct (Go maps) and number
lexemes are non-empty runs of number characters starting like a number.
The serializer output of such a tree parses back to it. -/

/-- Membership of a key in a field list. -/
def hasKeyF : JFields → Str → Bool
  | .nil, _ => false
  | .cons k _ rest, key => if k = key then true else hasKeyF rest key

/-- Pairwise distinctness of the keys of a field list. -/
def distinctKeys : JFields → Bool
  | .nil => true
  | .cons k _ rest => !hasKeyF rest k && distinctKeys rest

/-- Shape of a number lexeme the parser can produce. -/
def numLexWF : Str → Bool
  | [] => false
  | c :: rest => numStart c && rest.all numChar

mutual

def wfJSON : JSON → Bool
  | .null => true
  | .bool _ => true
  | .num lex => numLexWF lex
  | .str _ => true
  | .arr xs => wfElems xs
  | .obj fs => distinctKeys fs && wfFields fs

def wfFields : JFields → Bool
  | .nil => true
  | .cons _ v rest => wfJSON v && wfFields rest

def wfElems : JList → Bool
  | .nil => true
  | .cons v rest => wfJSON v && wfElems rest

end

/-- Constraint on the input following a serialized value: it must not
extend the final number lexeme. -/
def restOK : Str → Bool
  | [] => true
  | c :: _ => !numChar c

/-! ### Lemmas about the brace-group replacement -/

theorem rgAux_none_append (f : Str → Str) (pre s : Str) (hpre : lbrace ∉ pre) :
    rgAux f none (pre ++ s) = pre ++ rgAux f none s := by
  induction pre with
  | nil => simp
  | cons c rest ih =>
    have hc : c ≠ lbrace := fun h => hpre (h ▸ List.mem_cons_self c rest)
    have hrest : lbrace ∉ rest := fun h => hpre (List.mem_cons_of_mem c h)
    simp [rgAux, hc, ih hrest]

theorem rgAux_group (f : Str → Str) (frag post : Str)
    (hl : lbrace ∉ frag) (hr : rbrace ∉ frag) (buf : Str) :
    rgAux f (some buf) (frag ++ rbrace :: post)
      = lbrace :: f (buf ++ frag) ++ rbrace :: rgAux f none post := by
  induction frag generalizing buf with
  | nil => simp [rgAux]
  | cons c rest ih =>
    have hc1 : c ≠ rbrace := fun h => hr (h ▸ List.mem_cons_self c rest)
    have hc2 : c ≠ lbrace := fun h => hl (h ▸ List.mem_cons_self c rest)
    have hrest1 : lbrace ∉ rest := fun h => hl (List.mem_cons_of_mem c h)
    have hrest2 : rbrace ∉ rest := fun h => hr (List.mem_cons_of_mem c h)
    simp only [List.cons_append, rgAux, if_neg hc1, if_neg hc2, List.append_eq]
    rw [ih hrest1 hrest2 (buf ++ [c])]
    simp [List.append_assoc]

theorem rgAux_none_id (f : Str → Str) (s : Str) (hs : lbrace ∉ s) :
    rgAux f none s = s := by
  induction s with
  | nil => rfl
  | cons c rest ih =>
    have hc : c ≠ lbrace := fun h => hs (h ▸ List.mem_cons_self c rest)
    have hrest : lbrace ∉ rest := fun h => hs (List.mem_cons_of_mem c h)
    simp [rgAux, hc, ih hrest]

theorem splitOnComma_no_comma (s : Str) (hs : ',' ∉ s) : splitOnComma s = [s] := by
  induction s with
  | nil => rfl
  | cons c rest ih =>
    have hc : c ≠ ',' := fun h => hs (h ▸ List.mem_cons_self c rest)
    have hrest : ',' ∉ rest := fun h => hs (List.mem_cons_of_mem c h)
    simp [splitOnComma, hc, ih hrest]

theorem intercalate_single (sep : Str) (x : Str) : List.intercalate sep [x] = x := by
  simp [List.intercalate]

theorem find_first_of_prefix_miss {p : Rule → Bool} (rules1 rules2 : List Rule) (r : Rule)
    (h1 : ∀ r' ∈ rules1, p r' = false) (hr : p r = true) :
    List.find? p (rules1 ++ r :: rules2) = some r := by
  induction rules1 with
  | nil => simp [List.find?, hr]
  | cons a as ih =>
    have ha : p a = false := h1 a (List.mem_cons_self a as)
    have has : ∀ r' ∈ as, p r' = false := fun r' h => h1 r' (List.mem_cons_of_mem a h)
    simp [List.find?, ha, ih has]

end PromRelabel

namespace PromRelabel

/-! ### Lemmas about the field-list map operations -/

theorem fget_fapp : ∀ (a b : JFields) (key : Str),
    fget (fapp a b) key = ((fget a key).orElse (fun _ => fget b key))
  | .nil, b, key => by simp [fget, fapp]
  | .cons k v rest, b, key => by
    by_cases h : k = key <;> simp [fget, fapp, h, fget_fapp rest b key]

theorem fget_fdel_self : ∀ (m : JFields) (key : Str), fget (fdel m key) key = none
  | .nil, key => by simp [fget, fdel]
  | .cons k v rest, key => by
    by_cases h : k = key <;> simp [fget, fdel, h, fget_fdel_self rest key]

theorem fget_fdel_ne : ∀ (m : JFields) (key other : Str), key ≠ other →
    fget (fdel m key) other = fget m other
  | .nil, key, other, _ => by simp [fdel]
  | .cons k v rest, key, other, h => by
    by_cases hk : k = key
    · subst hk
      simp [fdel, fget, h, fget_fdel_ne rest k other h]
    · by_cases ho : k = other
      · subst ho
        simp [fdel, fget, hk]
      · simp [fdel, fget, hk, ho, fget_fdel_ne rest key other h]

theorem fget_fset_self (m : JFields) (key : Str) (v : JSON) :
    fget (fset m key v) key = some v := by
  simp [fset, fget_fapp, fget_fdel_self, fget]

theorem fdel_fapp : ∀ (a b : JFields) (key : Str),
    fdel (fapp a b) key = fapp (fdel a key) (fdel b key)
  | .nil, b, key => by simp [fdel, fapp]
  | .cons k v rest, b, key => by
    by_cases h : k = key <;> simp [fdel, fapp, h, fdel_fapp rest b key]

theorem fdel_fdel_self : ∀ (m : JFields) (key : Str),
    fdel (fdel m key) key = fdel m key
  | .nil, key => by simp [fdel]
  | .cons k v rest, key => by
    by_cases h : k = key <;> simp [fdel, h, fdel_fdel_self rest key]

theorem fapp_nil : ∀ (a : JFields), fapp a .nil = a
  | .nil => rfl
  | .cons k v rest => by simp [fapp, fapp_nil rest]

end PromRelabel

namespace PromRelabel

/-! ### Claim theorems (first group) -/

/-- C2 counterexample: on `up\x7binstance!="a=~b"\x7d` with rule
instance→host the rewriter detects `=~` inside the value, so the output is
`up\x7bhost=~b"\x7d`: neither the `!=` operator nor the value `"a=~b"` is
preserved, refuting the claim that operator and value are always kept
byte-for-byte. -/
theorem C2_counterexample :
    RewriteQuery [⟨"instance".data, "host".data⟩]
        "up\x7binstance!=\"a=~b\"\x7d".data
      = "up\x7bhost=~b\"\x7d".data
    ∧ RewriteQuery [⟨"instance".data, "host".data⟩]
        "up\x7binstance!=\"a=~b\"\x7d".data
      ≠ "up\x7bhost!=\"a=~b\"\x7d".data :=
  ⟨by decide, by decide⟩

/-- C2 (amended): for a query with exactly one brace group holding exactly
one matcher fragment whose label is matched by a configured rule, the
rewriter renames only the label and preserves operator and value exactly,
provided the operator detection (`=~` first, then `!=`, then `!~`, else
`=`) finds the fragment's actual operator at its actual position, i.e. the
first occurrence of the detected operator is the one that follows the
label. -/
theorem C2_single_matcher_rename (rules : List Rule) (r : Rule)
    (pre post src op value : Str)
    (hpre : lbrace ∉ pre) (hpost : lbrace ∉ post)
    (hfl : lbrace ∉ src ++ op ++ value) (hfr : rbrace ∉ src ++ op ++ value)
    (hfc : ',' ∉ src ++ op ++ value)
    (hfind : rules.find? (fun ru => matchesRule ru (src ++ op ++ value)) = some r)
    (_hsrc : r.SourceLabel = src)
    (hop : detectOperator (src ++ op ++ value) = op)
    (hidx : firstIndexOf (src ++ op ++ value) op = some src.length) :
    RewriteQuery rules (pre ++ lbrace :: ((src ++ op ++ value) ++ rbrace :: post))
      = pre ++ lbrace :: ((r.TargetLabel ++ op ++ value) ++ rbrace :: post) := by
  have hne : rules ≠ [] := by
    intro h
    subst h
    simp [List.find?] at hfind
  have hemp : rules.isEmpty = false := by
    cases rules with
    | nil => exact absurd rfl hne
    | cons a as => rfl
  have hdrop : (src ++ op ++ value).drop (src.length + op.length) = value := by
    have h2 : src ++ op ++ value = (src ++ op) ++ value := by
      simp [List.append_assoc]
    rw [h2, ← List.length_append, List.drop_left]
  simp only [RewriteQuery, hemp, Bool.false_eq_true, if_false, replaceGroups]
  rw [rgAux_none_append _ _ _ hpre]
  simp only [List.cons_append, rgAux, if_pos rfl]
  rw [rgAux_group _ _ _ hfl hfr [], rgAux_none_id _ _ hpost]
  simp only [List.nil_append]
  rw [rewriteGroupInner, splitOnComma_no_comma _ hfc]
  simp only [List.map_cons, List.map_nil, intercalate_single]
  rw [rewritePart, hfind]
  simp only [applyRule, hop, hidx, hdrop]
  simp

/-- C2 witness: the amended theorem applied to
`up\x7binstance=~"localhost.*"\x7d` with rule instance→host. -/
theorem C2_single_matcher_rename_witness :
    ([⟨"instance".data, "host".data⟩] : List Rule).find?
        (fun ru => matchesRule ru ("instance".data ++ opEqTilde ++ "\"localhost.*\"".data))
      = some ⟨"instance".data, "host".data⟩
    ∧ RewriteQuery [⟨"instance".data, "host".data⟩]
        ("up".data ++ lbrace ::
          (("instance".data ++ opEqTilde ++ "\"localhost.*\"".data) ++ rbrace :: []))
      = "up".data ++ lbrace ::
          (("host".data ++ opEqTilde ++ "\"localhost.*\"".data) ++ rbrace :: []) :=
  ⟨by decide,
   C2_single_matcher_rename [⟨"instance".data, "host".data⟩]
     ⟨"instance".data, "host".data⟩ "up".data [] "instance".data opEqTilde
     "\"localhost.*\"".data (by decide) (by decide) (by decide) (by decide)
     (by decide) (by decide) (by decide) (by decide) (by decide)⟩

/-- C6: inside one fragment the rule loop applies the first rule (in
resolved table order) whose prefix test matches and stops: the result is
independent of every later rule, including later rules with the same
source label. -/
theorem C6_first_match_wins (rules1 rules2 : List Rule) (r : Rule) (part : Str)
    (h1 : ∀ r2 ∈ rules1, matchesRule r2 part = false)
    (hr : matchesRule r part = true) :
    rewritePart (rules1 ++ r :: rules2) part = applyRule r part := by
  rw [rewritePart, find_first_of_prefix_miss rules1 rules2 r h1 hr]

/-- C6 witness: with two rules sharing source label `instance`, the first
one (instance→host) wins over the later instance→node. -/
theorem C6_first_match_wins_witness :
    (∀ r2 ∈ ([⟨"job".data, "service".data⟩] : List Rule),
      matchesRule r2 "instance=\"x\"".data = false)
    ∧ rewritePart
        ([⟨"job".data, "service".data⟩] ++
          (⟨"instance".data, "host".data⟩ : Rule) :: [⟨"instance".data, "node".data⟩])
        "instance=\"x\"".data
      = applyRule ⟨"instance".data, "host".data⟩ "instance=\"x\"".data :=
  ⟨by decide,
   C6_first_match_wins [⟨"job".data, "service".data⟩] [⟨"instance".data, "node".data⟩]
     ⟨"instance".data, "host".data⟩ "instance=\"x\"".data (by decide) (by decide)⟩

/-- C3: when a label set has the rule's source label (distinct from the
target), one application of the rename step makes the value available under
the target label and removes the source label; and the concrete document
from the claim rewrites as stated, with the original key absent. -/
theorem C3_metric_label_rename (mf : JFields) (src tgt : Str) (val : JSON)
    (hne : src ≠ tgt) (hget : fget mf src = some val) :
    (fget (rewriteLabelsStep mf ⟨src, tgt⟩) tgt = some val
      ∧ fget (rewriteLabelsStep mf ⟨src, tgt⟩) src = none)
    ∧ RewriteResultJSON [⟨"instance".data, "host".data⟩]
        "\x7b\"metric\":\x7b\"instance\":\"x\"\x7d\x7d".data
      = "\x7b\"metric\":\x7b\"host\":\"x\"\x7d\x7d".data := by
  refine ⟨⟨?_, ?_⟩, by decide⟩
  · simp only [rewriteLabelsStep, hget]
    rw [fget_fdel_ne _ src tgt hne, fget_fset_self]
  · simp only [rewriteLabelsStep, hget]
    rw [fget_fdel_self]

/-- C3 witness: the rename step applied to the label set of the claim's
example. -/
theorem C3_metric_label_rename_witness :
    (fget (rewriteLabelsStep (.cons "instance".data (.str "x".data) .nil)
        ⟨"instance".data, "host".data⟩) "host".data = some (.str "x".data)
      ∧ fget (rewriteLabelsStep (.cons "instance".data (.str "x".data) .nil)
        ⟨"instance".data, "host".data⟩) "instance".data = none)
    ∧ RewriteResultJSON [⟨"instance".data, "host".data⟩]
        "\x7b\"metric\":\x7b\"instance\":\"x\"\x7d\x7d".data
      = "\x7b\"metric\":\x7b\"host\":\"x\"\x7d\x7d".data :=
  C3_metric_label_rename (.cons "instance".data (.str "x".data) .nil)
    "instance".data "host".data (.str "x".data) (by decide) rfl

/-- C4 counterexample: with rule x→x the rename step writes the value back
under the same key and then deletes the key, so the label disappears
instead of being left unchanged: the full document
`\x7b"metric":\x7b"x":"v"\x7d\x7d` rewrites to `\x7b"metric":\x7b\x7d\x7d`
and the key `x` is gone from the label set. -/
theorem C4_counterexample :
    RewriteResultJSON [⟨"x".data, "x".data⟩]
        "\x7b\"metric\":\x7b\"x\":\"v\"\x7d\x7d".data
      = "\x7b\"metric\":\x7b\x7d\x7d".data
    ∧ (fget (rewriteLabelsStep (.cons "x".data (.str "v".data) .nil)
        ⟨"x".data, "x".data⟩) "x".data).isNone = true :=
  ⟨by decide, by decide⟩

/-- C4 (amended): a rule whose source label equals its target label deletes
that label from any label set containing it: the copy first overwrites the
entry in place and the delete then removes it, so the whole step equals a
plain delete and the key is absent afterwards. -/
theorem C4_same_label_deletes (mf : JFields) (l : Str) (val : JSON)
    (hget : fget mf l = some val) :
    rewriteLabelsStep mf ⟨l, l⟩ = fdel mf l
    ∧ fget (rewriteLabelsStep mf ⟨l, l⟩) l = none := by
  have hstep : rewriteLabelsStep mf ⟨l, l⟩ = fdel mf l := by
    simp only [rewriteLabelsStep, hget]
    rw [fset, fdel_fapp, fdel_fdel_self]
    simp [fdel, fapp_nil]
  exact ⟨hstep, hstep ▸ fget_fdel_self mf l⟩

/-- C4 witness: the amended theorem on the label set holding only `x`. -/
theorem C4_same_label_deletes_witness :
    rewriteLabelsStep (.cons "x".data (.str "v".data) .nil) ⟨"x".data, "x".data⟩
      = fdel (.cons "x".data (.str "v".data) .nil) "x".data
    ∧ fget (rewriteLabelsStep (.cons "x".data (.str "v".data) .nil)
        ⟨"x".data, "x".data⟩) "x".data = none :=
  C4_same_label_deletes (.cons "x".data (.str "v".data) .nil) "x".data
    (.str "v".data) rfl

/-- C10 counterexample: ` null` is valid JSON whose top-level value is not
an object, yet Unmarshal into the map succeeds (the map stays nil, no
error) and Marshal re-emits `null`, so the result rewriter returns the four
bytes `null` — not the input byte-identical, and not via the fail-open
branch. -/
theorem C10_counterexample :
    parseTopValue " null".data = some JSON.null
    ∧ RewriteResultJSON [⟨"instance".data, "host".data⟩] " null".data
      = "null".data
    ∧ RewriteResultJSON [⟨"instance".data, "host".data⟩] " null".data
      ≠ " null".data :=
  ⟨rfl, rfl, by decide⟩

/-- C10 (corrected): a document that parses to a top-level value that is
neither an object nor `null` makes Unmarshal into a map fail, which takes
the same fail-open branch as malformed input: the result rewriter returns
the input bytes unchanged.  A top-level `null`, however, is accepted by
Unmarshal (the map stays nil), survives the walk untouched, and is
re-marshaled as the four bytes `null` whenever the rule table is
non-empty. -/
theorem C10_non_object_top_level (rules : List Rule) (b : Str) (t : JSON)
    (hp : parseTopValue b = some t) (hno : ∀ fs, t ≠ JSON.obj fs) :
    (t ≠ JSON.null → RewriteResultJSON rules b = b)
    ∧ (t = JSON.null → rules.isEmpty = false →
        RewriteResultJSON rules b = litNull) := by
  constructor
  · intro hnn
    have hu : unmarshalTop b = none := by
      rw [unmarshalTop, hp]
      match t, hno, hnn with
      | .null, _, hnn => exact absurd rfl hnn
      | .obj fs, hno, _ => exact absurd rfl (hno fs)
      | .bool b2, _, _ => rfl
      | .num l, _, _ => rfl
      | .str s2, _, _ => rfl
      | .arr xs, _, _ => rfl
    by_cases hre : rules.isEmpty <;> simp [RewriteResultJSON, hre, hu]
  · intro hnull hre
    subst hnull
    have hu : unmarshalTop b = some none := by rw [unmarshalTop, hp]
    simp only [RewriteResultJSON, hre, Bool.false_eq_true, if_false, hu]

/-- C10 witness: the JSON array `[1,2]` passes through byte-identical, and
the document ` null` comes back as the four bytes `null`. -/
theorem C10_non_object_top_level_witness :
    RewriteResultJSON [⟨"instance".data, "host".data⟩] "[1,2]".data
      = "[1,2]".data
    ∧ RewriteResultJSON [⟨"instance".data, "host".data⟩] " null".data
      = litNull :=
  ⟨(C10_non_object_top_level [⟨"instance".data, "host".data⟩] "[1,2]".data
      (.arr (.cons (.num ['1']) (.cons (.num ['2']) .nil)))
      rfl (fun _ h => nomatch h)).1 (fun h => nomatch h),
   (C10_non_object_top_level [⟨"instance".data, "host".data⟩] " null".data
      JSON.null rfl (fun _ h => nomatch h)).2 rfl rfl⟩

end PromRelabel

namespace PromRelabel

/-- C7: for a gzip-encoded JSON response whose recompression of the
rewritten bytes fails, the pipeline sends the uncompressed rewritten bytes
and removes the Content-Encoding header, so the declared encoding matches
the bytes actually sent. -/
theorem C7_recompression_failure (rules : List Rule)
    (gd gz : Str → Option Str) (resp : Response) (dec : Str)
    (hjson : containsSub resp.ContentTypeHeader "application/json".data = true)
    (henc : resp.ContentEncoding.getD [] = "gzip".data)
    (hdec : gd resp.Body = some dec)
    (hcomp : gz (RewriteResultJSON rules dec) = none) :
    (rewriteResponse rules gd gz resp).Body = RewriteResultJSON rules dec
    ∧ (rewriteResponse rules gd gz resp).ContentEncoding = none := by
  simp [rewriteResponse, hjson, henc, hdec, hcomp]

/-- C7 witness: a concrete gzip JSON response with a failing compressor. -/
theorem C7_recompression_failure_witness :
    (rewriteResponse [⟨"a".data, "b".data⟩] (fun _ => some "[]".data)
      (fun _ => none)
      ⟨"application/json".data, some "gzip".data, "z".data, 1, some ['1']⟩).Body
      = RewriteResultJSON [⟨"a".data, "b".data⟩] "[]".data
    ∧ (rewriteResponse [⟨"a".data, "b".data⟩] (fun _ => some "[]".data)
      (fun _ => none)
      ⟨"application/json".data, some "gzip".data, "z".data, 1, some ['1']⟩).ContentEncoding
      = none :=
  C7_recompression_failure [⟨"a".data, "b".data⟩] (fun _ => some "[]".data)
    (fun _ => none) ⟨"application/json".data, some "gzip".data, "z".data, 1, some ['1']⟩
    "[]".data (by decide) (by decide) rfl rfl

/-- C9: the request body is rewritten only for method POST with content
type exactly `application/x-www-form-urlencoded`; for any other method or
content type the request is unchanged except that its URL query parameters
are still rewritten (in particular the body passes through untouched). -/
theorem C9_body_rewrite_guard (rules : List Rule) (req : Request)
    (h : req.Method ≠ "POST".data
      ∨ req.ContentTypeHeader ≠ "application/x-www-form-urlencoded".data) :
    rewriteRequest rules req
      = { req with URLParams := rewriteParamsMap rules req.URLParams } := by
  cases h with
  | inl hm => simp [rewriteRequest, hm]
  | inr hct =>
    by_cases hm : req.Method = "POST".data
    · cases hb : req.Body with
      | none => simp [rewriteRequest, hm, hb]
      | some body => simp [rewriteRequest, hm, hb, hct]
    · simp [rewriteRequest, hm]

/-- C9 witness: a PUT request with a form body and a query parameter: the
parameter is rewritten, the body is not. -/
theorem C9_body_rewrite_guard_witness :
    rewriteRequest [⟨"instance".data, "host".data⟩]
      ⟨"PUT".data, "application/x-www-form-urlencoded".data,
        some "query=up".data, 8, some ['8'],
        [("query".data, ["up\x7binstance=\"x\"\x7d".data])]⟩
      = { Method := "PUT".data,
          ContentTypeHeader := "application/x-www-form-urlencoded".data,
          Body := some "query=up".data,
          ContentLength := 8,
          ContentLengthHeader := some ['8'],
          URLParams := rewriteParamsMap [⟨"instance".data, "host".data⟩]
            [("query".data, ["up\x7binstance=\"x\"\x7d".data])] } :=
  C9_body_rewrite_guard [⟨"instance".data, "host".data⟩]
    ⟨"PUT".data, "application/x-www-form-urlencoded".data,
      some "query=up".data, 8, some ['8'],
      [("query".data, ["up\x7binstance=\"x\"\x7d".data])]⟩
    (Or.inl (by decide))

/-- C1: on the response side, whenever the incoming response is well framed
(its ContentLength field and Content-Length header equal its body length,
as the transport guarantees), every path of the response pipeline,
including the decompression-failure and recompression-failure fallbacks,
leaves both equal to the exact byte length of the body that is sent; on the
request side, whenever the form-rewrite path runs (POST, exact form content
type, parseable body), the rewritten request carries a body whose exact
byte length both fields report. -/
theorem C1_content_length_exact (rules : List Rule)
    (gd gz : Str → Option Str) (resp : Response) (req : Request)
    (body : Str) (form : Params)
    (hcl : resp.ContentLength = (resp.Body.length : Int))
    (hclh : resp.ContentLengthHeader = some (Nat.toDigits 10 resp.Body.length))
    (hm : req.Method = "POST".data)
    (hb : req.Body = some body)
    (hct : req.ContentTypeHeader = "application/x-www-form-urlencoded".data)
    (hp : parseQueryForm body = some form) :
    ((rewriteResponse rules gd gz resp).ContentLength
        = ((rewriteResponse rules gd gz resp).Body.length : Int)
      ∧ (rewriteResponse rules gd gz resp).ContentLengthHeader
        = some (Nat.toDigits 10 (rewriteResponse rules gd gz resp).Body.length))
    ∧ ((rewriteRequest rules req).Body.isSome = true
      ∧ (rewriteRequest rules req).ContentLength
        = (((rewriteRequest rules req).Body.getD []).length : Int)
      ∧ (rewriteRequest rules req).ContentLengthHeader
        = some (Nat.toDigits 10 ((rewriteRequest rules req).Body.getD []).length)) := by
  refine ⟨?_, ?_⟩
  · unfold rewriteResponse
    split
    · exact ⟨hcl, hclh⟩
    · split
      · cases hgd : gd resp.Body with
        | none => simp only [hgd]; exact ⟨hcl, hclh⟩
        | some dec =>
          simp only [hgd]
          cases hgz : gz (RewriteResultJSON rules dec) with
          | none => simp [hgz]
          | some compressed => simp [hgz]
      · exact ⟨rfl, rfl⟩
  · simp [rewriteRequest, hm, hb, hct, hp]

/-- C1 witness: a well-framed plain JSON response and a POST form request. -/
theorem C1_content_length_exact_witness :
    ((rewriteResponse [⟨"a".data, "b".data⟩] (fun _ => none) (fun _ => some [])
        ⟨"application/json".data, none, "[]".data, 2, some ['2']⟩).ContentLength
      = ((rewriteResponse [⟨"a".data, "b".data⟩] (fun _ => none) (fun _ => some [])
        ⟨"application/json".data, none, "[]".data, 2, some ['2']⟩).Body.length : Int)
      ∧ (rewriteResponse [⟨"a".data, "b".data⟩] (fun _ => none) (fun _ => some [])
        ⟨"application/json".data, none, "[]".data, 2, some ['2']⟩).ContentLengthHeader
      = some (Nat.toDigits 10 (rewriteResponse [⟨"a".data, "b".data⟩]
          (fun _ => none) (fun _ => some [])
          ⟨"application/json".data, none, "[]".data, 2, some ['2']⟩).Body.length))
    ∧ ((rewriteRequest [⟨"a".data, "b".data⟩]
        ⟨"POST".data, "application/x-www-form-urlencoded".data,
          some "query=up".data, 8, some ['8'], []⟩).Body.isSome = true
      ∧ (rewriteRequest [⟨"a".data, "b".data⟩]
        ⟨"POST".data, "application/x-www-form-urlencoded".data,
          some "query=up".data, 8, some ['8'], []⟩).ContentLength
        = (((rewriteRequest [⟨"a".data, "b".data⟩]
        ⟨"POST".data, "application/x-www-form-urlencoded".data,
          some "query=up".data, 8, some ['8'], []⟩).Body.getD []).length : Int)
      ∧ (rewriteRequest [⟨"a".data, "b".data⟩]
        ⟨"POST".data, "application/x-www-form-urlencoded".data,
          some "query=up".data, 8, some ['8'], []⟩).ContentLengthHeader
        = some (Nat.toDigits 10 ((rewriteRequest [⟨"a".data, "b".data⟩]
        ⟨"POST".data, "application/x-www-form-urlencoded".data,
          some "query=up".data, 8, some ['8'], []⟩).Body.getD []).length)) :=
  C1_content_length_exact [⟨"a".data, "b".data⟩] (fun _ => none) (fun _ => some [])
    ⟨"application/json".data, none, "[]".data, 2, some ['2']⟩
    ⟨"POST".data, "application/x-www-form-urlencoded".data,
      some "query=up".data, 8, some ['8'], []⟩
    "query=up".data [("query".data, ["up".data])]
    (by decide) (by decide) (by decide) (by decide) (by decide) (by decide)

end PromRelabel


namespace PromRelabel

/-! ### Character facts and string-literal roundtrip -/

theorem numStart_numChar (c : Char) (h : numStart c = true) : numChar c = true := by
  simp only [numStart, Bool.or_eq_true] at h
  simp only [numChar, Bool.or_eq_true]
  rcases h with h | h
  · exact Or.inl (Or.inl (Or.inl (Or.inl (Or.inl h))))
  · exact Or.inl (Or.inl (Or.inl (Or.inl (Or.inr h))))

theorem numStart_not_ws (c : Char) (h : numStart c = true) : isWS c = false := by
  cases hws : isWS c with
  | false => rfl
  | true =>
    exfalso
    simp only [isWS, Bool.or_eq_true, decide_eq_true_eq] at hws
    rcases hws with ((h1 | h1) | h1) | h1 <;> subst h1 <;> exact absurd h (by decide)

theorem numStart_ne (c d : Char) (h : numStart c = true)
    (hd : numStart d = false) : c ≠ d := by
  intro he
  subst he
  rw [h] at hd
  exact Bool.true_eq_false.mp hd

theorem skipWs_not_ws (c : Char) (s : Str) (h : isWS c = false) :
    skipWs (c :: s) = c :: s := by
  simp [skipWs, List.dropWhile_cons, h]

theorem parseStringBody_escape : ∀ (s rest : Str),
    parseStringBody (escapeString s ++ '"' :: rest) = some (s, rest)
  | [], rest => by simp [escapeString, parseStringBody]
  | c :: s2, rest => by
    by_cases h1 : c = '"'
    · subst h1
      simp [escapeString, escapeChar, parseStringBody, unescapeChar,
        parseStringBody_escape s2 rest]
    · by_cases h2 : c = '\\'
      · subst h2
        simp [escapeString, escapeChar, parseStringBody, unescapeChar,
          parseStringBody_escape s2 rest]
      · simp [escapeString, escapeChar, h1, h2, parseStringBody,
          parseStringBody_escape s2 rest]

theorem takeWhile_all_append (p : Char → Bool) : ∀ (a b : Str), a.all p = true →
    (b = [] ∨ p b.headI = false) →
    (a ++ b).takeWhile p = a ∧ (a ++ b).dropWhile p = b
  | [], b, _, hb => by
    rcases hb with hb | hb
    · subst hb
      simp
    · cases b with
      | nil => simp
      | cons c bs =>
        simp only [List.headI] at hb
        simp [List.takeWhile_cons, List.dropWhile_cons, hb]
  | a :: as, b, ha, hb => by
    simp only [List.all_cons, Bool.and_eq_true] at ha
    have ih := takeWhile_all_append p as b ha.2 hb
    simp [List.takeWhile_cons, List.dropWhile_cons, ha.1, ih.1, ih.2]

end PromRelabel

namespace PromRelabel

/-- Every serialized well-formed value starts with a non-whitespace
character that is not a closing bracket, closing brace or comma. -/
theorem ser_head : ∀ (t : JSON), wfJSON t = true →
    ∃ c s2, serializeJSON t = c :: s2
      ∧ isWS c = false ∧ c ≠ ']' ∧ c ≠ rbrace ∧ c ≠ ','
  | .null, _ => ⟨'n', _, rfl, by decide, by decide, by decide, by decide⟩
  | .bool true, _ => ⟨'t', _, rfl, by decide, by decide, by decide, by decide⟩
  | .bool false, _ => ⟨'f', _, rfl, by decide, by decide, by decide, by decide⟩
  | .num [], h => absurd h (by decide)
  | .num (c :: rest), h => by
    have hs : numStart c = true := by
      simp only [wfJSON, numLexWF, Bool.and_eq_true] at h
      exact h.1
    exact ⟨c, rest, rfl, numStart_not_ws c hs, numStart_ne c ']' hs (by decide),
      numStart_ne c rbrace hs (by decide), numStart_ne c ',' hs (by decide)⟩
  | .str s, _ => ⟨'"', _, rfl, by decide, by decide, by decide, by decide⟩
  | .arr xs, _ => ⟨'[', _, rfl, by decide, by decide, by decide, by decide⟩
  | .obj fs, _ => ⟨lbrace, _, rfl, by decide, by decide, by decide, by decide⟩

end PromRelabel

namespace PromRelabel

/-! ### Distinctness and well-formedness preservation -/

theorem hasKeyF_fapp : ∀ (a b : JFields) (key : Str),
    hasKeyF (fapp a b) key = (hasKeyF a key || hasKeyF b key)
  | .nil, b, key => by simp [hasKeyF, fapp]
  | .cons k v rest, b, key => by
    by_cases h : k = key <;> simp [hasKeyF, fapp, h, hasKeyF_fapp rest b key]

theorem hasKeyF_fdel_imp : ∀ (m : JFields) (key k : Str),
    hasKeyF (fdel m key) k = true → hasKeyF m k = true
  | .nil, _, _, h => h
  | .cons k2 v rest, key, k, h => by
    by_cases h2 : k2 = key
    · simp only [fdel, if_pos h2] at h
      simp [hasKeyF, hasKeyF_fdel_imp rest key k h]
    · simp only [fdel, if_neg h2, hasKeyF] at h ⊢
      by_cases h3 : k2 = k
      · simp [h3]
      · simp only [if_neg h3] at h ⊢
        exact hasKeyF_fdel_imp rest key k h

theorem hasKeyF_fdel_self : ∀ (m : JFields) (key : Str),
    hasKeyF (fdel m key) key = false
  | .nil, _ => rfl
  | .cons k v rest, key => by
    by_cases h : k = key <;> simp [fdel, hasKeyF, h, hasKeyF_fdel_self rest key]

theorem fdel_of_not_hasKey : ∀ (m : JFields) (key : Str),
    hasKeyF m key = false → fdel m key = m
  | .nil, _, _ => rfl
  | .cons k v rest, key, h => by
    simp only [hasKeyF] at h
    by_cases h2 : k = key
    · simp [h2] at h
    · simp only [if_neg h2] at h
      simp [fdel, h2, fdel_of_not_hasKey rest key h]

theorem distinctKeys_fdel : ∀ (m : JFields) (key : Str),
    distinctKeys m = true → distinctKeys (fdel m key) = true
  | .nil, _, _ => rfl
  | .cons k v rest, key, h => by
    simp only [distinctKeys, Bool.and_eq_true, Bool.not_eq_true'] at h
    by_cases h2 : k = key
    · simp [fdel, h2, distinctKeys_fdel rest key h.2]
    · simp only [fdel, if_neg h2, distinctKeys, Bool.and_eq_true, Bool.not_eq_true']
      refine ⟨?_, distinctKeys_fdel rest key h.2⟩
      cases h3 : hasKeyF (fdel rest key) k with
      | false => rfl
      | true => exact absurd (hasKeyF_fdel_imp rest key k h3) (by simp [h.1])

theorem distinct_snoc : ∀ (a : JFields) (k : Str) (v : JSON),
    distinctKeys a = true → hasKeyF a k = false →
    distinctKeys (fapp a (.cons k v .nil)) = true
  | .nil, k, v, _, _ => by simp [fapp, distinctKeys, hasKeyF]
  | .cons k2 v2 rest, k, v, hd, hk => by
    simp only [distinctKeys, Bool.and_eq_true, Bool.not_eq_true'] at hd
    simp only [hasKeyF] at hk
    by_cases h2 : k2 = k
    · simp [h2] at hk
    · simp only [if_neg h2] at hk
      simp only [fapp, distinctKeys, Bool.and_eq_true, Bool.not_eq_true',
        hasKeyF_fapp, Bool.or_eq_false_iff]
      refine ⟨⟨hd.1, ?_⟩, distinct_snoc rest k v hd.2 hk⟩
      have hne : ¬k = k2 := fun he => h2 he.symm
      simp [hasKeyF, hne]

theorem fset_eq_fapp (acc : JFields) (key : Str) (v : JSON)
    (h : hasKeyF acc key = false) :
    fset acc key v = fapp acc (.cons key v .nil) := by
  rw [fset, fdel_of_not_hasKey acc key h]

theorem distinct_fset (m : JFields) (key : Str) (v : JSON)
    (h : distinctKeys m = true) : distinctKeys (fset m key v) = true :=
  distinct_snoc (fdel m key) key v (distinctKeys_fdel m key h)
    (hasKeyF_fdel_self m key)

theorem distinct_fapp_head : ∀ (acc : JFields) (k : Str) (v : JSON) (fs : JFields),
    distinctKeys (fapp acc (.cons k v fs)) = true → hasKeyF acc k = false
  | .nil, _, _, _, _ => rfl
  | .cons k2 v2 rest, k, v, fs, h => by
    simp only [fapp, distinctKeys, Bool.and_eq_true, Bool.not_eq_true',
      hasKeyF_fapp, Bool.or_eq_false_iff, hasKeyF] at h
    have hk2 : k2 ≠ k := by
      have := h.1.2
      by_cases h3 : k = k2
      · simp [h3] at this
      · exact fun he => h3 he.symm
    simp only [hasKeyF, if_neg hk2]
    exact distinct_fapp_head rest k v fs h.2

theorem fapp_assoc : ∀ (a b c : JFields), fapp (fapp a b) c = fapp a (fapp b c)
  | .nil, _, _ => rfl
  | .cons k v rest, b, c => by simp [fapp, fapp_assoc rest b c]

theorem wfFields_fdel : ∀ (m : JFields) (key : Str),
    wfFields m = true → wfFields (fdel m key) = true
  | .nil, _, _ => rfl
  | .cons k v rest, key, h => by
    simp only [wfFields, Bool.and_eq_true] at h
    by_cases h2 : k = key
    · simp [fdel, h2, wfFields_fdel rest key h.2]
    · simp [fdel, h2, wfFields, h.1, wfFields_fdel rest key h.2]

theorem wfFields_fapp : ∀ (a b : JFields),
    wfFields a = true → wfFields b = true → wfFields (fapp a b) = true
  | .nil, _, _, hb => hb
  | .cons k v rest, b, ha, hb => by
    simp only [wfFields, Bool.and_eq_true] at ha
    simp [fapp, wfFields, ha.1, wfFields_fapp rest b ha.2 hb]

theorem wfFields_fset (m : JFields) (key : Str) (v : JSON)
    (hm : wfFields m = true) (hv : wfJSON v = true) :
    wfFields (fset m key v) = true :=
  wfFields_fapp _ _ (wfFields_fdel m key hm) (by simp [wfFields, hv])

theorem wfElems_lapp : ∀ (a b : JList),
    wfElems a = true → wfElems b = true → wfElems (lapp a b) = true
  | .nil, _, _, hb => hb
  | .cons v rest, b, ha, hb => by
    simp only [wfElems, Bool.and_eq_true] at ha
    simp [lapp, wfElems, ha.1, wfElems_lapp rest b ha.2 hb]

theorem fget_wf : ∀ (m : JFields) (key : Str) (v : JSON),
    wfFields m = true → fget m key = some v → wfJSON v = true
  | .nil, _, _, _, h => by simp [fget] at h
  | .cons k v2 rest, key, v, hm, h => by
    simp only [wfFields, Bool.and_eq_true] at hm
    by_cases h2 : k = key
    · simp only [fget, if_pos h2, Option.some.injEq] at h
      exact h ▸ hm.1
    · simp only [fget, if_neg h2] at h
      exact fget_wf rest key v hm.2 h

end PromRelabel

namespace PromRelabel

theorem all_takeWhile (p : Char → Bool) : ∀ (l : Str), (l.takeWhile p).all p = true
  | [] => rfl
  | c :: rest => by
    by_cases h : p c
    · simp [List.takeWhile_cons, h, all_takeWhile p rest]
    · simp [List.takeWhile_cons, h]

end PromRelabel

namespace PromRelabel

/-- Every tree the parser produces satisfies the well-formedness invariant:
distinct object keys and valid number lexemes. -/
theorem parse_wf : ∀ fuel : Nat,
    (∀ input t rest, parseValue fuel input = some (t, rest) → wfJSON t = true)
    ∧ (∀ input acc t rest, distinctKeys acc = true → wfFields acc = true →
        parseMembers fuel input acc = some (t, rest) → wfJSON t = true)
    ∧ (∀ input acc t rest, wfElems acc = true →
        parseElems fuel input acc = some (t, rest) → wfJSON t = true) := by
  intro fuel
  induction fuel using Nat.strong_induction_on with
  | _ fuel ih =>
  match fuel with
  | 0 =>
    refine ⟨?_, ?_, ?_⟩
    · intro input t rest h
      exact Option.noConfusion h
    · intro input acc t rest _ _ h
      exact Option.noConfusion h
    · intro input acc t rest _ h
      exact Option.noConfusion h
  | n+1 =>
    have ihn := ih n (by omega)
    refine ⟨?_, ?_, ?_⟩
    · intro input t rest h
      simp only [parseValue] at h
      cases hsk : skipWs input with
      | nil => simp only [hsk] at h; exact Option.noConfusion h
      | cons c rest1 =>
        simp only [hsk] at h
        by_cases hc1 : c = lbrace
        · rw [if_pos hc1] at h
          cases hsk2 : skipWs rest1 with
          | nil => simp only [hsk2] at h; exact Option.noConfusion h
          | cons d rest2 =>
            simp only [hsk2] at h
            by_cases hd1 : d = rbrace
            · rw [if_pos hd1] at h
              simp only [Option.some.injEq, Prod.mk.injEq] at h
              exact h.1 ▸ (by decide)
            · rw [if_neg hd1] at h
              exact ihn.2.1 (d :: rest2) .nil t rest rfl rfl h
        · rw [if_neg hc1] at h
          by_cases hc2 : c = '['
          · rw [if_pos hc2] at h
            cases hsk2 : skipWs rest1 with
            | nil => simp only [hsk2] at h; exact Option.noConfusion h
            | cons d rest2 =>
              simp only [hsk2] at h
              by_cases hd1 : d = ']'
              · rw [if_pos hd1] at h
                simp only [Option.some.injEq, Prod.mk.injEq] at h
                exact h.1 ▸ (by decide)
              · rw [if_neg hd1] at h
                exact ihn.2.2 (d :: rest2) .nil t rest rfl h
          · rw [if_neg hc2] at h
            by_cases hc3 : c = '"'
            · rw [if_pos hc3] at h
              simp only [Option.map_eq_some'] at h
              obtain ⟨p, _, hp2⟩ := h
              simp only [Prod.mk.injEq] at hp2
              exact hp2.1 ▸ rfl
            · rw [if_neg hc3] at h
              by_cases hc4 : numStart c = true
              · rw [if_pos hc4] at h
                simp only [Option.some.injEq, Prod.mk.injEq] at h
                have hnc : numChar c = true := numStart_numChar c hc4
                have ht : JSON.num ((c :: rest1).takeWhile numChar) = t := h.1
                subst ht
                simp only [wfJSON, List.takeWhile_cons, hnc, if_pos, numLexWF,
                  Bool.and_eq_true]
                exact ⟨hc4, all_takeWhile numChar rest1⟩
              · rw [if_neg hc4] at h
                by_cases hc5 : startsWith litTrue (c :: rest1) = true
                · rw [if_pos hc5] at h
                  simp only [Option.some.injEq, Prod.mk.injEq] at h
                  exact h.1 ▸ (by decide)
                · rw [if_neg hc5] at h
                  by_cases hc6 : startsWith litFalse (c :: rest1) = true
                  · rw [if_pos hc6] at h
                    simp only [Option.some.injEq, Prod.mk.injEq] at h
                    exact h.1 ▸ (by decide)
                  · rw [if_neg hc6] at h
                    by_cases hc7 : startsWith litNull (c :: rest1) = true
                    · rw [if_pos hc7] at h
                      simp only [Option.some.injEq, Prod.mk.injEq] at h
                      exact h.1 ▸ (by decide)
                    · rw [if_neg hc7] at h
                      exact Option.noConfusion h
    · intro input acc t rest hdk hwf h
      simp only [parseMembers] at h
      cases hsk : skipWs input with
      | nil => simp only [hsk] at h; exact Option.noConfusion h
      | cons c rest1 =>
        simp only [hsk] at h
        by_cases hc : c = '"'
        · rw [if_pos hc] at h
          cases hpb : parseStringBody rest1 with
          | none => simp only [hpb] at h; exact Option.noConfusion h
          | some p =>
            obtain ⟨key, rest2⟩ := p
            simp only [hpb] at h
            cases hsk2 : skipWs rest2 with
            | nil => simp only [hsk2] at h; exact Option.noConfusion h
            | cons d rest3 =>
              simp only [hsk2] at h
              by_cases hd1 : d = ':'
              · rw [if_pos hd1] at h
                cases hpv : parseValue n rest3 with
                | none => simp only [hpv] at h; exact Option.noConfusion h
                | some q =>
                  obtain ⟨v, rest4⟩ := q
                  simp only [hpv] at h
                  have hv : wfJSON v = true := ihn.1 _ _ _ hpv
                  cases hsk3 : skipWs rest4 with
                  | nil => simp only [hsk3] at h; exact Option.noConfusion h
                  | cons e rest5 =>
                    simp only [hsk3] at h
                    by_cases he1 : e = ','
                    · rw [if_pos he1] at h
                      exact ihn.2.1 _ _ _ _ (distinct_fset acc key v hdk)
                        (wfFields_fset acc key v hwf hv) h
                    · rw [if_neg he1] at h
                      by_cases he2 : e = rbrace
                      · rw [if_pos he2] at h
                        simp only [Option.some.injEq, Prod.mk.injEq] at h
                        have ht : JSON.obj (fset acc key v) = t := h.1
                        subst ht
                        simp only [wfJSON, Bool.and_eq_true]
                        exact ⟨distinct_fset acc key v hdk,
                          wfFields_fset acc key v hwf hv⟩
                      · rw [if_neg he2] at h
                        exact Option.noConfusion h
              · rw [if_neg hd1] at h
                exact Option.noConfusion h
        · rw [if_neg hc] at h
          exact Option.noConfusion h
    · intro input acc t rest hwe h
      simp only [parseElems] at h
      cases hpv : parseValue n input with
      | none => simp only [hpv] at h; exact Option.noConfusion h
      | some q =>
        obtain ⟨v, rest1⟩ := q
        simp only [hpv] at h
        have hv : wfJSON v = true := ihn.1 _ _ _ hpv
        cases hsk : skipWs rest1 with
        | nil => simp only [hsk] at h; exact Option.noConfusion h
        | cons e rest2 =>
          simp only [hsk] at h
          by_cases he1 : e = ','
          · rw [if_pos he1] at h
            exact ihn.2.2 _ _ _ _
              (wfElems_lapp acc (.cons v .nil) hwe (by simp [wfElems, hv])) h
          · rw [if_neg he1] at h
            by_cases he2 : e = ']'
            · rw [if_pos he2] at h
              simp only [Option.some.injEq, Prod.mk.injEq] at h
              have ht : JSON.arr (lsnoc acc v) = t := h.1
              subst ht
              simp only [wfJSON, lsnoc]
              exact wfElems_lapp acc (.cons v .nil) hwe (by simp [wfElems, hv])
            · rw [if_neg he2] at h
              exact Option.noConfusion h

end PromRelabel

namespace PromRelabel

theorem rewriteLabelsStep_wf (m : JFields) (rule : Rule)
    (hd : distinctKeys m = true) (hw : wfFields m = true) :
    distinctKeys (rewriteLabelsStep m rule) = true
    ∧ wfFields (rewriteLabelsStep m rule) = true := by
  cases hg : fget m rule.SourceLabel with
  | none => simp only [rewriteLabelsStep, hg]; exact ⟨hd, hw⟩
  | some val =>
    have hv : wfJSON val = true := fget_wf m rule.SourceLabel val hw hg
    simp only [rewriteLabelsStep, hg]
    exact ⟨distinctKeys_fdel _ _ (distinct_fset m rule.TargetLabel val hd),
      wfFields_fdel _ _ (wfFields_fset m rule.TargetLabel val hw hv)⟩

theorem foldl_rewriteLabelsStep_wf : ∀ (rules : List Rule) (m : JFields),
    distinctKeys m = true → wfFields m = true →
    distinctKeys (List.foldl rewriteLabelsStep m rules) = true
    ∧ wfFields (List.foldl rewriteLabelsStep m rules) = true
  | [], m, hd, hw => ⟨hd, hw⟩
  | r :: rs, m, hd, hw => by
    simp only [List.foldl_cons]
    have hstep := rewriteLabelsStep_wf m r hd hw
    exact foldl_rewriteLabelsStep_wf rs _ hstep.1 hstep.2

theorem rewriteLabels_wf (rules : List Rule) (m : JFields)
    (hd : distinctKeys m = true) (hw : wfFields m = true) :
    distinctKeys (rewriteLabels rules m) = true
    ∧ wfFields (rewriteLabels rules m) = true := by
  rw [rewriteLabels]
  exact foldl_rewriteLabelsStep_wf rules m hd hw

theorem metricStep_wf (rules : List Rule) (fields : JFields)
    (hd : distinctKeys fields = true) (hw : wfFields fields = true) :
    distinctKeys (metricStep rules fields) = true
    ∧ wfFields (metricStep rules fields) = true := by
  cases hg : fget fields metricKey with
  | none => simp only [metricStep, hg]; exact ⟨hd, hw⟩
  | some v =>
    match v, hg with
    | .obj mf, hg =>
      have hv : wfJSON (.obj mf) = true := fget_wf fields metricKey _ hw hg
      simp only [wfJSON, Bool.and_eq_true] at hv
      have hrw := rewriteLabels_wf rules mf hv.1 hv.2
      simp only [metricStep, hg]
      exact ⟨distinct_fset fields metricKey _ hd,
        wfFields_fset fields metricKey _ hw (by simp [wfJSON, hrw.1, hrw.2])⟩
    | .null, hg => simp only [metricStep, hg]; exact ⟨hd, hw⟩
    | .bool b, hg => simp only [metricStep, hg]; exact ⟨hd, hw⟩
    | .num l, hg => simp only [metricStep, hg]; exact ⟨hd, hw⟩
    | .str s2, hg => simp only [metricStep, hg]; exact ⟨hd, hw⟩
    | .arr xs, hg => simp only [metricStep, hg]; exact ⟨hd, hw⟩

theorem processFields_hasKey : ∀ (rules : List Rule) (fuel : Nat) (fs : JFields)
    (key : Str), hasKeyF (processFields rules fuel fs) key = hasKeyF fs key
  | _, fuel, .nil, _ => by cases fuel <;> rfl
  | _, 0, .cons _ _ _, _ => rfl
  | rules, fuel+1, .cons k v rest, key => by
    simp [processFields, hasKeyF, processFields_hasKey rules fuel rest key]

/-- The tree walk preserves the well-formedness invariant for every fuel. -/
theorem process_wf : ∀ (fuel : Nat) (rules : List Rule),
    (∀ t, wfJSON t = true → wfJSON (processJSONData rules fuel t) = true)
    ∧ (∀ fs, distinctKeys fs = true → wfFields fs = true →
        distinctKeys (processFields rules fuel fs) = true
        ∧ wfFields (processFields rules fuel fs) = true)
    ∧ (∀ xs, wfElems xs = true → wfElems (processElems rules fuel xs) = true) := by
  intro fuel
  induction fuel using Nat.strong_induction_on with
  | _ fuel ih =>
  match fuel with
  | 0 =>
    intro rules
    refine ⟨fun t h => h, fun fs h1 h2 => ?_, fun xs h => ?_⟩
    · match fs with
      | .nil => exact ⟨h1, h2⟩
      | .cons k v rest => exact ⟨h1, h2⟩
    · match xs with
      | .nil => exact h
      | .cons v rest => exact h
  | n+1 =>
    intro rules
    have ihn := ih n (by omega) rules
    refine ⟨?_, ?_, ?_⟩
    · intro t hwf
      match t, hwf with
      | .null, hwf => exact hwf
      | .bool b, hwf => exact hwf
      | .num l, hwf => exact hwf
      | .str s2, hwf => exact hwf
      | .obj fields, hwf =>
        simp only [processJSONData, wfJSON, Bool.and_eq_true] at hwf ⊢
        have hm := metricStep_wf rules fields hwf.1 hwf.2
        exact ihn.2.1 (metricStep rules fields) hm.1 hm.2
      | .arr xs, hwf =>
        simp only [processJSONData, wfJSON] at hwf ⊢
        exact ihn.2.2 xs hwf
    · intro fs hd hw
      match fs, hd, hw with
      | .nil, _, _ => exact ⟨rfl, rfl⟩
      | .cons k v rest, hd, hw =>
        simp only [processFields, distinctKeys, wfFields, Bool.and_eq_true,
          Bool.not_eq_true'] at hd hw ⊢
        have hrest := ihn.2.1 rest hd.2 hw.2
        refine ⟨⟨?_, hrest.1⟩, ihn.1 v hw.1, hrest.2⟩
        rw [processFields_hasKey]
        exact hd.1
    · intro xs hw
      match xs, hw with
      | .nil, _ => exact rfl
      | .cons v rest, hw =>
        simp only [processElems, wfElems, Bool.and_eq_true] at hw ⊢
        exact ⟨ihn.1 v hw.1, ihn.2.2 rest hw.2⟩

end PromRelabel

namespace PromRelabel

theorem lapp_assoc : ∀ (a b c : JList), lapp (lapp a b) c = lapp a (lapp b c)
  | .nil, _, _ => rfl
  | .cons x rest, b, c => by simp [lapp, lapp_assoc rest b c]

theorem fapp_nil_left (b : JFields) : fapp .nil b = b := rfl

theorem serializeFields_cons_nil (k : Str) (v : JSON) :
    serializeFields (.cons k v .nil)
      = '"' :: escapeString k ++ '"' :: ':' :: serializeJSON v := by
  simp [serializeFields]

theorem serializeFields_cons_cons (k : Str) (v : JSON) (k2 : Str) (v2 : JSON)
    (r : JFields) :
    serializeFields (.cons k v (.cons k2 v2 r))
      = ('"' :: escapeString k ++ '"' :: ':' :: serializeJSON v)
        ++ ',' :: serializeFields (.cons k2 v2 r) := by
  simp [serializeFields]

theorem serializeElems_cons_nil (v : JSON) :
    serializeElems (.cons v .nil) = serializeJSON v := by
  simp [serializeElems]

theorem serializeElems_cons_cons (v v2 : JSON) (r : JList) :
    serializeElems (.cons v (.cons v2 r))
      = serializeJSON v ++ ',' :: serializeElems (.cons v2 r) := by
  simp [serializeElems]

/-- The serialization of a non-empty well-formed element list starts with a
character that cannot close the surrounding array. -/
theorem serializeElems_head (v : JSON) (r : JList) (hv : wfJSON v = true) :
    ∃ c0 s0, serializeElems (.cons v r) = c0 :: s0
      ∧ isWS c0 = false ∧ c0 ≠ ']' := by
  obtain ⟨c0, s0, hser, hws, hb, _, _⟩ := ser_head v hv
  cases r with
  | nil => exact ⟨c0, s0, by simp [serializeElems_cons_nil, hser], hws, hb⟩
  | cons v2 r2 =>
    exact ⟨c0, s0 ++ ',' :: serializeElems (.cons v2 r2),
      by simp [serializeElems_cons_cons, hser], hws, hb⟩

/-- The serialization of a non-empty field list starts with the key's
opening quote. -/
theorem serializeFields_head (k : Str) (v : JSON) (r : JFields) :
    ∃ s0, serializeFields (.cons k v r) = '"' :: s0 := by
  cases r with
  | nil => exact ⟨_, serializeFields_cons_nil k v⟩
  | cons k2 v2 r2 =>
    refine ⟨escapeString k ++ '"' :: ':' ::
      (serializeJSON v ++ ',' :: serializeFields (.cons k2 v2 r2)), ?_⟩
    simp [serializeFields_cons_cons, List.cons_append]

theorem restOK_of_head (c : Char) (rest : Str) (h : numChar c = false) :
    restOK (c :: rest) = true := by
  simp [restOK, h]

end PromRelabel

namespace PromRelabel

theorem skipWs_quote (s : Str) : skipWs ('"' :: s) = '"' :: s :=
  skipWs_not_ws _ _ (by decide)

theorem skipWs_colon (s : Str) : skipWs (':' :: s) = ':' :: s :=
  skipWs_not_ws _ _ (by decide)

theorem skipWs_comma (s : Str) : skipWs (',' :: s) = ',' :: s :=
  skipWs_not_ws _ _ (by decide)

theorem skipWs_rbrace (s : Str) : skipWs (rbrace :: s) = rbrace :: s :=
  skipWs_not_ws _ _ (by decide)

theorem skipWs_rbracket (s : Str) : skipWs (']' :: s) = ']' :: s :=
  skipWs_not_ws _ _ (by decide)

theorem restOK_rbrace (rest : Str) : restOK (rbrace :: rest) = true := rfl

theorem restOK_rbracket (rest : Str) : restOK (']' :: rest) = true := rfl

theorem restOK_comma (rest : Str) : restOK (',' :: rest) = true := rfl

/-- One-step unfolding of the value parser on an input whose head is not
whitespace. -/
theorem parseValue_cons (n : Nat) (c : Char) (s : Str) (h : isWS c = false) :
    parseValue (n+1) (c :: s)
      = (if c = lbrace then
          match skipWs s with
          | d :: rest2 =>
            if d = rbrace then some (.obj .nil, rest2)
            else parseMembers n (d :: rest2) .nil
          | [] => none
        else if c = '[' then
          match skipWs s with
          | d :: rest2 =>
            if d = ']' then some (.arr .nil, rest2)
            else parseElems n (d :: rest2) .nil
          | [] => none
        else if c = '"' then
          (parseStringBody s).map (fun p => (.str p.1, p.2))
        else if numStart c then
          some (.num ((c :: s).takeWhile numChar), (c :: s).dropWhile numChar)
        else if startsWith litTrue (c :: s) then
          some (.bool true, (c :: s).drop 4)
        else if startsWith litFalse (c :: s) then
          some (.bool false, (c :: s).drop 5)
        else if startsWith litNull (c :: s) then
          some (.null, (c :: s).drop 4)
        else none) := by
  simp only [parseValue, skipWs_not_ws c s h]

/-- One-step unfolding of the object-member parser on an input whose head
is not whitespace. -/
theorem parseMembers_cons (n : Nat) (c : Char) (s : Str) (acc : JFields)
    (h : isWS c = false) :
    parseMembers (n+1) (c :: s) acc
      = (if c = '"' then
          match parseStringBody s with
          | some (key, rest2) =>
            (match skipWs rest2 with
             | d :: rest3 =>
               if d = ':' then
                 match parseValue n rest3 with
                 | some (v, rest4) =>
                   (match skipWs rest4 with
                    | e :: rest5 =>
                      if e = ',' then parseMembers n rest5 (fset acc key v)
                      else if e = rbrace then
                        some (.obj (fset acc key v), rest5)
                      else none
                    | [] => none)
                 | none => none
               else none
             | [] => none)
          | none => none
        else none) := by
  simp only [parseMembers, skipWs_not_ws c s h]

end PromRelabel
namespace PromRelabel

/-- A serialized well-formed tree parses back to exactly that tree,
consuming exactly its serialization, for any fuel above its length. -/
theorem parse_serialize : ∀ fuel : Nat,
    (∀ (t : JSON) (rest : Str), wfJSON t = true → restOK rest = true →
      (serializeJSON t).length < fuel →
      parseValue fuel (serializeJSON t ++ rest) = some (t, rest))
    ∧ (∀ (fs : JFields) (acc : JFields) (rest : Str), wfFields fs = true →
      distinctKeys (fapp acc fs) = true → fs ≠ .nil →
      (serializeFields fs).length + 1 < fuel →
      parseMembers fuel (serializeFields fs ++ rbrace :: rest) acc
        = some (.obj (fapp acc fs), rest))
    ∧ (∀ (xs : JList) (acc : JList) (rest : Str), wfElems xs = true →
      xs ≠ .nil →
      (serializeElems xs).length + 1 < fuel →
      parseElems fuel (serializeElems xs ++ ']' :: rest) acc
        = some (.arr (lapp acc xs), rest)) := by
  intro fuel
  induction fuel using Nat.strong_induction_on with
  | _ fuel ih =>
  match fuel with
  | 0 =>
    refine ⟨?_, ?_, ?_⟩
    · intro t rest _ _ hlen
      exact absurd hlen (by omega)
    · intro fs acc rest _ _ _ hlen
      exact absurd hlen (by omega)
    · intro xs acc rest _ _ hlen
      exact absurd hlen (by omega)
  | n+1 =>
    have ihn := ih n (by omega)
    refine ⟨?_, ?_, ?_⟩
    · intro t rest hwf hro hlen
      match t, hwf, hlen with
      | .null, _, _ =>
        simp only [serializeJSON, litNull, List.cons_append, List.nil_append]
        rw [parseValue_cons n 'n' _ (by decide)]
        simp [startsWith, litTrue, litFalse, litNull, lbrace, numStart]
      | .bool true, _, _ =>
        simp only [serializeJSON, litTrue, List.cons_append, List.nil_append]
        rw [parseValue_cons n 't' _ (by decide)]
        simp [startsWith, litTrue, litFalse, litNull, lbrace, numStart]
      | .bool false, _, _ =>
        simp only [serializeJSON, litFalse, List.cons_append, List.nil_append]
        rw [parseValue_cons n 'f' _ (by decide)]
        simp [startsWith, litTrue, litFalse, litNull, lbrace, numStart]
      | .num [], hwf, _ => exact absurd hwf (by decide)
      | .num (c :: lex2), hwf, _ =>
        simp only [wfJSON, numLexWF, Bool.and_eq_true] at hwf
        have hall : (c :: lex2).all numChar = true := by
          simp [List.all_cons, numStart_numChar c hwf.1, hwf.2]
        have hb : rest = [] ∨ numChar rest.headI = false := by
          cases rest with
          | nil => exact Or.inl rfl
          | cons c2 r2 =>
            right
            simp only [restOK, Bool.not_eq_true'] at hro
            simpa using hro
        have htw := takeWhile_all_append numChar (c :: lex2) rest hall hb
        simp only [serializeJSON, List.cons_append]
        rw [parseValue_cons n c _ (numStart_not_ws c hwf.1)]
        rw [if_neg (numStart_ne c lbrace hwf.1 (by decide))]
        rw [if_neg (numStart_ne c '[' hwf.1 (by decide))]
        rw [if_neg (numStart_ne c '"' hwf.1 (by decide))]
        rw [if_pos hwf.1]
        simp only [List.cons_append] at htw
        rw [htw.1, htw.2]
      | .str s, _, _ =>
        simp only [serializeJSON, List.cons_append, List.append_assoc,
          List.singleton_append, List.nil_append]
        rw [parseValue_cons n '"' _ (by decide)]
        rw [if_neg (by decide), if_neg (by decide), if_pos rfl]
        rw [parseStringBody_escape s rest]
        simp
      | .arr .nil, _, _ =>
        simp only [serializeJSON, serializeElems, List.cons_append,
          List.nil_append]
        rw [parseValue_cons n '[' _ (by decide)]
        rw [if_neg (by decide), if_pos rfl]
        simp [skipWs_rbracket]
      | .arr (.cons v xs2), hwf, hlen =>
        have hwe : wfElems (JList.cons v xs2) = true := hwf
        have hwfv : wfJSON v = true := by
          simp only [wfElems, Bool.and_eq_true] at hwe
          exact hwe.1
        obtain ⟨c0, s0, hser, hws0, hb0⟩ := serializeElems_head v xs2 hwfv
        have hlen2 : (serializeElems (JList.cons v xs2)).length + 1 < n := by
          simp only [serializeJSON, List.length_cons, List.length_append,
            List.length_nil] at hlen
          omega
        simp only [serializeJSON, List.cons_append, List.append_assoc,
          List.singleton_append, List.nil_append]
        rw [parseValue_cons n '[' _ (by decide)]
        rw [if_neg (by decide), if_pos rfl]
        have hskip : skipWs (serializeElems (JList.cons v xs2) ++ ']' :: rest)
            = c0 :: (s0 ++ ']' :: rest) := by
          rw [hser, List.cons_append, skipWs_not_ws _ _ hws0]
        simp only [hskip]
        rw [if_neg hb0]
        have hback : c0 :: (s0 ++ ']' :: rest)
            = serializeElems (JList.cons v xs2) ++ ']' :: rest := by
          rw [hser, List.cons_append]
        rw [hback]
        rw [ihn.2.2 (JList.cons v xs2) .nil rest hwe
          (fun hx => JList.noConfusion hx) hlen2]
        rfl
      | .obj .nil, _, _ =>
        simp only [serializeJSON, serializeFields, List.cons_append,
          List.nil_append]
        rw [parseValue_cons n lbrace _ (by decide)]
        rw [if_pos rfl]
        simp [skipWs_rbrace]
      | .obj (.cons k v fs2), hwf, hlen =>
        have hobj : distinctKeys (JFields.cons k v fs2) = true
            ∧ wfFields (JFields.cons k v fs2) = true := by
          simp only [wfJSON, Bool.and_eq_true] at hwf
          exact hwf
        obtain ⟨s0, hser⟩ := serializeFields_head k v fs2
        have hlen2 : (serializeFields (JFields.cons k v fs2)).length + 1 < n := by
          simp only [serializeJSON, List.length_cons, List.length_append,
            List.length_nil] at hlen
          omega
        simp only [serializeJSON, List.cons_append, List.append_assoc,
          List.singleton_append, List.nil_append]
        rw [parseValue_cons n lbrace _ (by decide)]
        rw [if_pos rfl]
        have hskip : skipWs (serializeFields (JFields.cons k v fs2) ++ rbrace :: rest)
            = '"' :: (s0 ++ rbrace :: rest) := by
          rw [hser, List.cons_append, skipWs_quote]
        simp only [hskip]
        rw [if_neg (by decide)]
        have hback : '"' :: (s0 ++ rbrace :: rest)
            = serializeFields (JFields.cons k v fs2) ++ rbrace :: rest := by
          rw [hser, List.cons_append]
        rw [hback]
        rw [ihn.2.1 (JFields.cons k v fs2) .nil rest hobj.2 hobj.1
          (fun hx => JFields.noConfusion hx) hlen2]
        rfl
    · intro fs acc rest hwf hdist hne hlen
      match fs, hwf, hdist, hne, hlen with
      | .nil, _, _, hne, _ => exact absurd rfl hne
      | .cons k v fs2, hwf, hdist, _, hlen =>
        have hwfv : wfJSON v = true := by
          simp only [wfFields, Bool.and_eq_true] at hwf
          exact hwf.1
        have hwfr : wfFields fs2 = true := by
          simp only [wfFields, Bool.and_eq_true] at hwf
          exact hwf.2
        have hnk : hasKeyF acc k = false := distinct_fapp_head acc k v fs2 hdist
        have hfs : fset acc k v = fapp acc (.cons k v .nil) := fset_eq_fapp acc k v hnk
        match fs2, hwfr, hdist, hlen with
        | .nil, _, hdist, hlen =>
          rw [serializeFields_cons_nil]
          have hlenv : (serializeJSON v).length < n := by
            rw [serializeFields_cons_nil] at hlen
            simp only [List.length_cons, List.length_append] at hlen
            omega
          simp only [List.cons_append, List.append_assoc, List.singleton_append, List.nil_append]
          rw [parseMembers_cons n '"' _ acc (by decide)]
          rw [if_pos rfl]
          simp only [parseStringBody_escape]
          simp only [skipWs_colon, if_true]
          simp only [ihn.1 v (rbrace :: rest) hwfv (restOK_rbrace rest) hlenv]
          simp only [skipWs_rbrace, if_true]
          rw [hfs, if_neg (show ¬rbrace = ',' by decide)]
        | .cons k2 v2 fs3, hwfr, hdist, hlen =>
          rw [serializeFields_cons_cons]
          have hlenv : (serializeJSON v).length < n := by
            rw [serializeFields_cons_cons] at hlen
            simp only [List.length_cons, List.length_append] at hlen
            omega
          have hlenr : (serializeFields (JFields.cons k2 v2 fs3)).length + 1 < n := by
            rw [serializeFields_cons_cons] at hlen
            simp only [List.length_cons, List.length_append] at hlen
            omega
          simp only [List.cons_append, List.append_assoc, List.singleton_append, List.nil_append]
          rw [parseMembers_cons n '"' _ acc (by decide)]
          rw [if_pos rfl]
          simp only [parseStringBody_escape]
          simp only [skipWs_colon, if_true]
          have hval := ihn.1 v
            (',' :: (serializeFields (.cons k2 v2 fs3) ++ rbrace :: rest))
            hwfv (restOK_comma _) hlenv
          simp only [List.cons_append, List.append_assoc] at hval
          simp only [hval]
          simp only [skipWs_comma, if_true]
          have hdist2 : distinctKeys (fapp (fset acc k v) (.cons k2 v2 fs3)) = true := by
            rw [hfs, fapp_assoc]
            exact hdist
          have hrec := ihn.2.1 (.cons k2 v2 fs3) (fset acc k v) rest hwfr hdist2
            (fun hx => JFields.noConfusion hx) hlenr
          rw [hrec]
          rw [hfs, fapp_assoc]
          rfl
    · intro xs acc rest hwf hne hlen
      match xs, hwf, hne, hlen with
      | .nil, _, hne, _ => exact absurd rfl hne
      | .cons v xs2, hwf, _, hlen =>
        have hwfv : wfJSON v = true := by
          simp only [wfElems, Bool.and_eq_true] at hwf
          exact hwf.1
        have hwfr : wfElems xs2 = true := by
          simp only [wfElems, Bool.and_eq_true] at hwf
          exact hwf.2
        match xs2, hwfr, hlen with
        | .nil, _, hlen =>
          rw [serializeElems_cons_nil]
          have hlenv : (serializeJSON v).length < n := by
            rw [serializeElems_cons_nil] at hlen
            omega
          simp only [parseElems]
          simp only [ihn.1 v (']' :: rest) hwfv (restOK_rbracket rest) hlenv]
          simp only [skipWs_rbracket, if_true]
          rw [if_neg (show ¬ (']' = ',') by decide)]
          rfl
        | .cons v2 xs3, hwfr, hlen =>
          rw [serializeElems_cons_cons]
          have hlenv : (serializeJSON v).length < n := by
            rw [serializeElems_cons_cons] at hlen
            simp only [List.length_cons, List.length_append] at hlen
            omega
          have hlenr : (serializeElems (JList.cons v2 xs3)).length + 1 < n := by
            rw [serializeElems_cons_cons] at hlen
            simp only [List.length_cons, List.length_append] at hlen
            omega
          simp only [parseElems, List.cons_append, List.append_assoc]
          have hval := ihn.1 v
            (',' :: (serializeElems (.cons v2 xs3) ++ ']' :: rest))
            hwfv (restOK_comma _) hlenv
          simp only [List.cons_append, List.append_assoc] at hval
          simp only [hval]
          simp only [skipWs_comma, if_true]
          have hrec := ihn.2.2 (.cons v2 xs3) (lsnoc acc v) rest hwfr
            (fun hx => JList.noConfusion hx) hlenr
          rw [hrec]
          rw [lsnoc, lapp_assoc]
          rfl

end PromRelabel
namespace PromRelabel

/-- C5: on any input that Unmarshal rejects (malformed bytes, or a
well-formed document whose top-level value is neither an object nor null)
the result rewriter returns the input bytes byte-identical with no error,
and the defensive re-serialization failure branch likewise falls back to
the input; on every input Unmarshal accepts, the produced output is again
parseable JSON (a top-level object, or `null` for the accepted nil map). -/
theorem C5_fail_open (rules : List Rule) (b : Str) :
    (unmarshalTop b = none → RewriteResultJSON rules b = b)
    ∧ (∀ r, unmarshalTop b = some r →
        (unmarshalTop (RewriteResultJSON rules b)).isSome = true) := by
  constructor
  · intro hu
    by_cases hre : rules.isEmpty <;> simp [RewriteResultJSON, hre, hu]
  · intro r hu
    by_cases hre : rules.isEmpty
    · simp [RewriteResultJSON, hre, hu]
    · have hre2 : rules.isEmpty = false := by simpa using hre
      cases hpt : parseTopValue b with
      | none => rw [unmarshalTop, hpt] at hu; exact Option.noConfusion hu
      | some t =>
        rw [unmarshalTop, hpt] at hu
        match t, hpt, hu with
        | .bool b2, hpt, hu => exact Option.noConfusion hu
        | .num l, hpt, hu => exact Option.noConfusion hu
        | .str s2, hpt, hu => exact Option.noConfusion hu
        | .arr xs, hpt, hu => exact Option.noConfusion hu
        | .null, hpt, hu =>
          have hu2 : unmarshalTop b = some none := by
            rw [unmarshalTop, hpt]
          have hrw : RewriteResultJSON rules b = litNull := by
            simp only [RewriteResultJSON, hre2, Bool.false_eq_true, if_false,
              hu2]
          rw [hrw]
          decide
        | .obj fs0, hpt, hu =>
          have hwf : wfJSON (.obj fs0) = true := by
            cases hpv : parseValue (b.length + 1) b with
            | none => rw [parseTopValue, hpv] at hpt; exact Option.noConfusion hpt
            | some q =>
              obtain ⟨t0, rest0⟩ := q
              simp only [parseTopValue, hpv] at hpt
              by_cases hskip : skipWs rest0 = []
              · rw [if_pos hskip] at hpt
                have ht0 : t0 = JSON.obj fs0 := by simpa using hpt
                subst ht0
                exact (parse_wf (b.length + 1)).1 b _ rest0 hpv
              · rw [if_neg hskip] at hpt
                exact Option.noConfusion hpt
          have hu2 : unmarshalTop b = some (some fs0) := by
            simp [unmarshalTop, hpt]
          have hwf2 : wfJSON (processJSONData rules (jsize (.obj fs0) + 1) (.obj fs0)) = true :=
            (process_wf _ rules).1 _ hwf
          have hrw : RewriteResultJSON rules b
              = serializeJSON (processJSONData rules (jsize (.obj fs0) + 1) (.obj fs0)) := by
            simp only [RewriteResultJSON, hre2, Bool.false_eq_true, if_false, hu2,
              marshalJSON]
          rw [hrw]
          have hrt := (parse_serialize
              ((serializeJSON (processJSONData rules (jsize (.obj fs0) + 1) (.obj fs0))).length + 1)).1
            (processJSONData rules (jsize (.obj fs0) + 1) (.obj fs0)) [] hwf2 rfl
            (by omega)
          rw [List.append_nil] at hrt
          have hshape : processJSONData rules (jsize (.obj fs0) + 1) (.obj fs0)
              = .obj (processFields rules (jsize (.obj fs0)) (metricStep rules fs0)) := rfl
          rw [unmarshalTop, parseTopValue, hrt]
          simp [skipWs, hshape]

/-- C5 witness: non-JSON bytes pass through unchanged, and the rewrite of a
concrete metric document re-parses as a JSON object. -/
theorem C5_fail_open_witness :
    RewriteResultJSON [⟨"instance".data, "host".data⟩] "not json".data
      = "not json".data
    ∧ (unmarshalTop (RewriteResultJSON [⟨"instance".data, "host".data⟩]
        "\x7b\"metric\":\x7b\"instance\":\"x\"\x7d\x7d".data)).isSome = true :=
  ⟨(C5_fail_open [⟨"instance".data, "host".data⟩] "not json".data).1 (by rfl),
   (C5_fail_open [⟨"instance".data, "host".data⟩]
      "\x7b\"metric\":\x7b\"instance\":\"x\"\x7d\x7d".data).2
     (some (.cons "metric".data
        (.obj (.cons "instance".data (.str "x".data) .nil)) .nil))
     (by rfl)⟩

end PromRelabel
